import Mathlib

/-!
Shallow embedding of the spidior automaton engine (src/nfa/mod.rs) and of the
C-like language scanners (src/languages/clike.rs), together with theorems
checking the specification's claims against the code.

Conventions of the embedding:
* `usize` indices become `Nat`;
* `&mut self` methods become state passing (the method returns the new value);
* `Result<T, Box<dyn Error>>` becomes `Except String T` (the code only ever
  constructs string errors);
* `HashSet<NodePointer>` becomes `Finset Nat` (hash sets are compared and
  consumed only up to membership here);
* a Rust loop without a structural termination argument is embedded with an
  explicit fuel that provably suffices (see `Context.add_epsilons`, `toDfaLoop`);
* Rust `panic!`/`unwrap` failure is embedded as `Option.none`;
* character classification (`is_alphabetic`, `is_alphanumeric`,
  `is_whitespace`) is modelled by the corresponding Lean `Char` predicates,
  which agree with Rust on the ASCII fragment used throughout.
-/

deriving instance DecidableEq for Except

/-- `NodePointer` is a transparent wrapper around a `usize` index
(src/nfa/mod.rs, `struct NodePointer { id: usize }`); we embed it as `Nat`. -/
abbrev NodePointer := Nat

/-- The transition kinds of the automaton (`enum TransitionType`). -/
inductive TransitionType where
  | Epsilon : TransitionType
  | Alpha : Char → TransitionType
  | Range : String → TransitionType
  | NegativeRange : String → TransitionType
  | QuerySetRange : String → TransitionType
  | Open : Nat → TransitionType
  | Close : Nat → TransitionType
deriving DecidableEq

/-- `struct Transition { kind, dest }`. -/
structure Transition where
  kind : TransitionType
  dest : NodePointer
deriving DecidableEq

/-- `Transition::new`. -/
def Transition.new (kind : TransitionType) (dest : NodePointer) : Transition :=
  ⟨kind, dest⟩

/-- `struct Node { transitions: Vec<Transition> }`. -/
structure Node where
  transitions : List Transition
deriving DecidableEq

/-- `Node::new`. -/
def Node.new : Node := ⟨[]⟩

/-- `struct Nfa { nodes: Vec<Node> }`. -/
structure Nfa where
  nodes : List Node
deriving DecidableEq

/-- `Nfa::new`. -/
def Nfa.new (nodes : List Node) : Nfa := ⟨nodes⟩

/-- `Nfa::get`. -/
def Nfa.get (nfa : Nfa) (i : NodePointer) : Option Node := nfa.nodes[i]?

/-- `Nfa::add_node`: push the node, return the pointer to it (the old length). -/
def Nfa.add_node (nfa : Nfa) (node : Node) : NodePointer × Nfa :=
  (nfa.nodes.length, ⟨nfa.nodes ++ [node]⟩)

/-- `Nfa::new_node`. -/
def Nfa.new_node (nfa : Nfa) : NodePointer × Nfa := nfa.add_node Node.new

/-- `Nfa::add_transition`: fails with "Invalid source!" when `from` is out of
range for the arena, otherwise pushes the transition onto the source node's
transition list. -/
def Nfa.add_transition (nfa : Nfa) (f : NodePointer) (t : Transition) :
    Except String Nfa :=
  match nfa.nodes[f]? with
  | none => Except.error "Invalid source!"
  | some node => Except.ok ⟨nfa.nodes.set f ⟨node.transitions ++ [t]⟩⟩

/-- `Nfa::add_transition_range`. -/
def Nfa.add_transition_range (nfa : Nfa) (f t : NodePointer) (s : String) :
    Except String Nfa :=
  nfa.add_transition f (Transition.new (TransitionType.Range s) t)

/-- `Nfa::add_transition_queryset`. -/
def Nfa.add_transition_queryset (nfa : Nfa) (f t : NodePointer) (s : String) :
    Except String Nfa :=
  nfa.add_transition f (Transition.new (TransitionType.QuerySetRange s) t)

/-- `Nfa::add_transition_negativerange`. -/
def Nfa.add_transition_negativerange (nfa : Nfa) (f t : NodePointer) (s : String) :
    Except String Nfa :=
  nfa.add_transition f (Transition.new (TransitionType.NegativeRange s) t)

/-- `Nfa::add_transition_alpha`. -/
def Nfa.add_transition_alpha (nfa : Nfa) (f t : NodePointer) (on_ : Char) :
    Except String Nfa :=
  nfa.add_transition f (Transition.new (TransitionType.Alpha on_) t)

/-- `Nfa::add_transition_epsilon`. -/
def Nfa.add_transition_epsilon (nfa : Nfa) (f t : NodePointer) :
    Except String Nfa :=
  nfa.add_transition f (Transition.new TransitionType.Epsilon t)

/-- `Nfa::add_group`: adds the `Open(num)` edge, then (with `?` early return,
which leaves the first mutation in place) the `Close(num)` edge.  The pair
returns the `Result` together with the final state of `self`. -/
def Nfa.add_group (nfa : Nfa) (start_from start_to end_from end_to : NodePointer)
    (num : Nat) : Except String Unit × Nfa :=
  match nfa.add_transition start_from (Transition.new (TransitionType.Open num) start_to) with
  | Except.error e => (Except.error e, nfa)
  | Except.ok nfa1 =>
    match nfa1.add_transition end_from (Transition.new (TransitionType.Close num) end_to) with
    | Except.error e => (Except.error e, nfa1)
    | Except.ok nfa2 => (Except.ok (), nfa2)

/-- `struct Context { nodes: HashSet<NodePointer> }`, embedded as the node set
itself. -/
abbrev Context := Finset NodePointer

/-- `Context::contains`. -/
def Context.contains (ctx : Context) (i : NodePointer) : Bool := decide (i ∈ ctx)

/-- The epsilon destinations of one node (the `if let Epsilon` arm of the
inner loop of `Context::add_epsilons`). -/
def Node.epsDests (node : Node) : Finset NodePointer :=
  (node.transitions.filterMap fun t =>
    match t.kind with
    | TransitionType.Epsilon => some t.dest
    | _ => none).toFinset

/-- Epsilon destinations of a pointer, empty when the pointer is out of range
(`if let Some(node) = nfa.get(nodeptr)`). -/
def Nfa.epsDestsOf (nfa : Nfa) (p : NodePointer) : Finset NodePointer :=
  match nfa.get p with
  | some node => node.epsDests
  | none => ∅

/-- One pass of the `Context::add_epsilons` loop body: insert every epsilon
destination of every node currently in the set. -/
def epsOnce (nfa : Nfa) (s : Finset NodePointer) : Finset NodePointer :=
  s ∪ s.biUnion nfa.epsDestsOf

/-- All epsilon destinations occurring anywhere in the arena; the closure loop
can only add members of this set. -/
def Nfa.allEpsDests (nfa : Nfa) : Finset NodePointer :=
  nfa.nodes.foldr (fun node acc => node.epsDests ∪ acc) ∅

/-- The `loop` of `Context::add_epsilons`, with explicit fuel: run one pass;
if the size did not change, the fixpoint is reached and the set is returned. -/
def addEpsilonsAux (nfa : Nfa) : Nat → Finset NodePointer → Finset NodePointer
  | 0, s => s
  | fuel + 1, s =>
    let s' := epsOnce nfa s
    if s'.card = s.card then s' else addEpsilonsAux nfa fuel s'

/-- `Context::add_epsilons`.  The source iterates until a fixpoint; every pass
either stops or strictly grows the set inside `s ∪ nfa.allEpsDests`, so
`(s ∪ nfa.allEpsDests).card + 1` passes always suffice (proved below). -/
def Context.add_epsilons (s : Finset NodePointer) (nfa : Nfa) : Finset NodePointer :=
  addEpsilonsAux nfa ((s ∪ nfa.allEpsDests).card + 1) s

/-- The destinations of transitions of one node whose kind matches `input`:
the four guarded match arms of `Context::step` (`Alpha` by equality, `Range`
by membership, `NegativeRange` by non-membership, everything else never). -/
def Node.matchingDests (node : Node) (input : Char) : Finset NodePointer :=
  (node.transitions.filterMap fun t =>
    match t.kind with
    | TransitionType.Alpha c => if c = input then some t.dest else none
    | TransitionType.Range s => if s.contains input then some t.dest else none
    | TransitionType.NegativeRange s => if s.contains input then none else some t.dest
    | _ => none).toFinset

/-- `Context::step`: collect the matching destinations of every active node,
then take the epsilon closure of the collected set. -/
def Context.step (ctx : Context) (nfa : Nfa) (input : Char) : Context :=
  Context.add_epsilons
    (ctx.biUnion fun p =>
      match nfa.get p with
      | some node => node.matchingDests input
      | none => ∅)
    nfa

/-! ### Epsilon-closure theory -/

/-- One epsilon edge: `b` is an epsilon destination of `a`. -/
def epsEdge (nfa : Nfa) (a b : NodePointer) : Prop := b ∈ nfa.epsDestsOf a

/-- Reachability along epsilon edges only. -/
def epsReaches (nfa : Nfa) : NodePointer → NodePointer → Prop :=
  Relation.ReflTransGen (epsEdge nfa)

theorem subset_epsOnce (nfa : Nfa) (s : Finset NodePointer) : s ⊆ epsOnce nfa s :=
  Finset.subset_union_left

theorem subset_addEpsilonsAux (nfa : Nfa) :
    ∀ (fuel : Nat) (s : Finset NodePointer), s ⊆ addEpsilonsAux nfa fuel s := by
  intro fuel
  induction fuel with
  | zero => intro s; exact Finset.Subset.refl s
  | succ n ih =>
    intro s
    show s ⊆ (if (epsOnce nfa s).card = s.card then epsOnce nfa s else addEpsilonsAux nfa n (epsOnce nfa s))
    split
    · exact subset_epsOnce nfa s
    · exact (subset_epsOnce nfa s).trans (ih (epsOnce nfa s))

theorem epsDests_subset_foldr {node : Node} :
    ∀ (l : List Node), node ∈ l →
      node.epsDests ⊆ l.foldr (fun nd acc => nd.epsDests ∪ acc) ∅ := by
  intro l
  induction l with
  | nil => intro h; cases h
  | cons hd tl ih =>
    intro h
    rcases List.mem_cons.mp h with h1 | h2
    · subst h1; exact Finset.subset_union_left
    · exact (ih h2).trans Finset.subset_union_right

theorem epsDests_subset_allEpsDests (nfa : Nfa) {node : Node} (h : node ∈ nfa.nodes) :
    node.epsDests ⊆ nfa.allEpsDests :=
  epsDests_subset_foldr nfa.nodes h

theorem epsDestsOf_subset_allEpsDests (nfa : Nfa) (p : NodePointer) :
    nfa.epsDestsOf p ⊆ nfa.allEpsDests := by
  unfold Nfa.epsDestsOf
  cases h : nfa.get p with
  | none => simp
  | some node => exact epsDests_subset_allEpsDests nfa (List.getElem?_mem h)

theorem epsOnce_subset_universe (nfa : Nfa) {s U : Finset NodePointer}
    (hs : s ⊆ U) (hall : nfa.allEpsDests ⊆ U) : epsOnce nfa s ⊆ U := by
  unfold epsOnce
  apply Finset.union_subset hs
  intro x hx
  rcases Finset.mem_biUnion.mp hx with ⟨p, _, hxp⟩
  exact hall (epsDestsOf_subset_allEpsDests nfa p hxp)

theorem addEpsilonsAux_closed (nfa : Nfa) {U : Finset NodePointer}
    (hall : nfa.allEpsDests ⊆ U) :
    ∀ (fuel : Nat) (s : Finset NodePointer), s ⊆ U → U.card + 1 ≤ fuel + s.card →
      epsOnce nfa (addEpsilonsAux nfa fuel s) = addEpsilonsAux nfa fuel s := by
  intro fuel
  induction fuel with
  | zero =>
    intro s hsU hcard
    exact absurd (Finset.card_le_card hsU) (by omega)
  | succ n ih =>
    intro s hsU hcard
    show epsOnce nfa (if (epsOnce nfa s).card = s.card then epsOnce nfa s else addEpsilonsAux nfa n (epsOnce nfa s))
      = (if (epsOnce nfa s).card = s.card then epsOnce nfa s else addEpsilonsAux nfa n (epsOnce nfa s))
    split
    · next heq =>
      have hs' : s = epsOnce nfa s :=
        Finset.eq_of_subset_of_card_le (subset_epsOnce nfa s) (le_of_eq heq)
      rw [← hs']
      exact hs'.symm
    · next hne =>
      have hsub : s ⊆ epsOnce nfa s := subset_epsOnce nfa s
      have hlt : s.card < (epsOnce nfa s).card :=
        lt_of_le_of_ne (Finset.card_le_card hsub) (fun h => hne h.symm)
      exact ih (epsOnce nfa s) (epsOnce_subset_universe nfa hsU hall) (by omega)

theorem add_epsilons_closed (s : Finset NodePointer) (nfa : Nfa) :
    epsOnce nfa (Context.add_epsilons s nfa) = Context.add_epsilons s nfa := by
  unfold Context.add_epsilons
  exact addEpsilonsAux_closed nfa Finset.subset_union_right _ s
    Finset.subset_union_left (by omega)

theorem subset_add_epsilons (s : Finset NodePointer) (nfa : Nfa) :
    s ⊆ Context.add_epsilons s nfa :=
  subset_addEpsilonsAux nfa _ s

theorem add_epsilons_of_closed {s : Finset NodePointer} {nfa : Nfa}
    (h : epsOnce nfa s = s) : Context.add_epsilons s nfa = s := by
  unfold Context.add_epsilons addEpsilonsAux
  simp [h]

theorem addEpsilonsAux_sound (nfa : Nfa) (s0 : Finset NodePointer) :
    ∀ (fuel : Nat) (s : Finset NodePointer),
      (∀ n ∈ s, ∃ m ∈ s0, epsReaches nfa m n) →
      ∀ n ∈ addEpsilonsAux nfa fuel s, ∃ m ∈ s0, epsReaches nfa m n := by
  have honce : ∀ (s : Finset NodePointer),
      (∀ n ∈ s, ∃ m ∈ s0, epsReaches nfa m n) →
      ∀ n ∈ epsOnce nfa s, ∃ m ∈ s0, epsReaches nfa m n := by
    intro s hs n hn
    rcases Finset.mem_union.mp hn with h1 | h2
    · exact hs n h1
    · rcases Finset.mem_biUnion.mp h2 with ⟨p, hp, hnp⟩
      rcases hs p hp with ⟨m, hm, hmp⟩
      exact ⟨m, hm, hmp.tail hnp⟩
  intro fuel
  induction fuel with
  | zero => intro s hs; exact hs
  | succ k ih =>
    intro s hs
    show ∀ n ∈ (if (epsOnce nfa s).card = s.card then epsOnce nfa s else addEpsilonsAux nfa k (epsOnce nfa s)), _
    split
    · exact honce s hs
    · exact ih (epsOnce nfa s) (honce s hs)

theorem add_epsilons_sound {s : Finset NodePointer} {nfa : Nfa} {n : NodePointer}
    (h : n ∈ Context.add_epsilons s nfa) : ∃ m ∈ s, epsReaches nfa m n :=
  addEpsilonsAux_sound nfa s _ s (fun n hn => ⟨n, hn, Relation.ReflTransGen.refl⟩) n h

theorem add_epsilons_complete {s : Finset NodePointer} {nfa : Nfa} {m n : NodePointer}
    (hm : m ∈ s) (h : epsReaches nfa m n) : n ∈ Context.add_epsilons s nfa := by
  induction h with
  | refl => exact subset_add_epsilons s nfa hm
  | tail hab hbc ih =>
    rename_i b c
    have : c ∈ epsOnce nfa (Context.add_epsilons s nfa) :=
      Finset.mem_union.mpr (Or.inr (Finset.mem_biUnion.mpr ⟨b, ih, hbc⟩))
    rwa [add_epsilons_closed] at this

theorem mem_add_epsilons_iff (s : Finset NodePointer) (nfa : Nfa) (n : NodePointer) :
    n ∈ Context.add_epsilons s nfa ↔ ∃ m ∈ s, epsReaches nfa m n :=
  ⟨add_epsilons_sound, fun ⟨_, hm, hr⟩ => add_epsilons_complete hm hr⟩

/-! ### Claims C4 and C8 -/

/-- The transition list of a pointer (empty when out of range); used to state
the claims about `Context::step`. -/
def Nfa.transitionsAt (nfa : Nfa) (p : NodePointer) : List Transition :=
  match nfa.get p with
  | some node => node.transitions
  | none => []

/-- Stated from the claim wording for C4: a transition kind matches an input
character when it is `Alpha` with exactly that character, `Range` with the
character a member of the string, or `NegativeRange` with the character not a
member; `QuerySetRange`, `Open`, `Close` and `Epsilon` never match. -/
def specMatches (k : TransitionType) (input : Char) : Prop :=
  match k with
  | TransitionType.Alpha c => c = input
  | TransitionType.Range s => s.contains input = true
  | TransitionType.NegativeRange s => s.contains input = false
  | _ => False

theorem mem_matchingDests_iff (nfa : Nfa) (p : NodePointer) (input : Char)
    (m : NodePointer) :
    (m ∈ match nfa.get p with
          | some node => node.matchingDests input
          | none => (∅ : Finset NodePointer)) ↔
      ∃ t ∈ nfa.transitionsAt p, specMatches t.kind input ∧ t.dest = m := by
  unfold Nfa.transitionsAt
  cases nfa.get p with
  | none => simp
  | some node =>
    show m ∈ node.matchingDests input ↔ _
    unfold Node.matchingDests
    rw [List.mem_toFinset, List.mem_filterMap]
    constructor
    · rintro ⟨t, ht, harm⟩
      refine ⟨t, ht, ?_⟩
      cases hk : t.kind with
      | Alpha c =>
        rw [hk] at harm
        by_cases hc : c = input
        · simp only [hc, if_pos rfl] at harm
          exact ⟨by simp [specMatches, hc], by injection harm⟩
        · simp [hc] at harm
      | Range s =>
        rw [hk] at harm
        by_cases hc : s.contains input
        · simp only [hc, if_pos] at harm
          exact ⟨by simp [specMatches, hc], by injection harm⟩
        · simp [hc] at harm
      | NegativeRange s =>
        rw [hk] at harm
        by_cases hc : s.contains input
        · simp [hc] at harm
        · simp only [Bool.not_eq_true] at hc
          simp only [hc] at harm
          exact ⟨by simp [specMatches, hc], by injection harm⟩
      | Epsilon => rw [hk] at harm; exact absurd harm (by simp)
      | QuerySetRange s => rw [hk] at harm; exact absurd harm (by simp)
      | Open n => rw [hk] at harm; exact absurd harm (by simp)
      | Close n => rw [hk] at harm; exact absurd harm (by simp)
    · rintro ⟨t, ht, hmatch, hdest⟩
      refine ⟨t, ht, ?_⟩
      cases hk : t.kind with
      | Alpha c =>
        rw [hk] at hmatch
        simp only [specMatches] at hmatch
        simp [hmatch, hdest]
      | Range s =>
        rw [hk] at hmatch
        simp only [specMatches] at hmatch
        simp [hmatch, hdest]
      | NegativeRange s =>
        rw [hk] at hmatch
        simp only [specMatches] at hmatch
        simp [hmatch, hdest]
      | Epsilon => rw [hk] at hmatch; exact absurd hmatch (by simp [specMatches])
      | QuerySetRange s => rw [hk] at hmatch; exact absurd hmatch (by simp [specMatches])
      | Open n => rw [hk] at hmatch; exact absurd hmatch (by simp [specMatches])
      | Close n => rw [hk] at hmatch; exact absurd hmatch (by simp [specMatches])

/-- Claim C4: `Context::step` returns exactly the epsilon closure of the set of
destinations of those transitions out of active-set members whose kind matches
the input character (`Alpha` by equality, `Range` by membership,
`NegativeRange` by non-membership); a node is in the result precisely when it
is epsilon-reachable from the destination of some matching transition, so a
destination reachable only via a non-matching transition (including every
`QuerySetRange`, `Open` and `Close` transition) is never included. -/
theorem C4_step_characterization (nfa : Nfa) (ctx : Context) (input : Char)
    (n : NodePointer) :
    n ∈ Context.step ctx nfa input ↔
      ∃ m, (∃ p ∈ ctx, ∃ t ∈ nfa.transitionsAt p,
              specMatches t.kind input ∧ t.dest = m) ∧
           epsReaches nfa m n := by
  unfold Context.step
  rw [mem_add_epsilons_iff]
  constructor
  · rintro ⟨m, hm, hr⟩
    rcases Finset.mem_biUnion.mp hm with ⟨p, hp, hmp⟩
    exact ⟨m, ⟨p, hp, (mem_matchingDests_iff nfa p input m).mp hmp⟩, hr⟩
  · rintro ⟨m, ⟨p, hp, hex⟩, hr⟩
    exact ⟨m, Finset.mem_biUnion.mpr
      ⟨p, hp, (mem_matchingDests_iff nfa p input m).mpr hex⟩, hr⟩

/-- Claim C8: epsilon closure is idempotent — applying `add_epsilons` to the
set it already returned yields the same set; equivalently the returned set
contains the input set and is closed under following `Epsilon` edges (one
more pass adds nothing). -/
theorem C8_add_epsilons_idempotent (nfa : Nfa) (s : Finset NodePointer) :
    Context.add_epsilons (Context.add_epsilons s nfa) nfa
        = Context.add_epsilons s nfa ∧
      s ⊆ Context.add_epsilons s nfa ∧
      epsOnce nfa (Context.add_epsilons s nfa) = Context.add_epsilons s nfa :=
  ⟨add_epsilons_of_closed (add_epsilons_closed s nfa),
   subset_add_epsilons s nfa,
   add_epsilons_closed s nfa⟩

/-! ### `NfaModel::to_dfa` (src/nfa/mod.rs lines 216-257) -/

/-- Insert into an ascending list (helper for `ascList`). -/
def insertAsc (a : NodePointer) : List NodePointer → List NodePointer
  | [] => [a]
  | b :: l => if a ≤ b then a :: b :: l else b :: insertAsc a l

/-- Collecting a `HashSet<NodePointer>` into a `Vec<NodePointer>`
(`ctx.nodes.into_iter().collect()`): the source collects in unspecified hash
order; we fix the ascending order, which is well defined on the quotient.
Every set collected by `to_dfa` is in fact a singleton (proved below), for
which every collection order gives the same vector. -/
def ascList (s : Finset NodePointer) : List NodePointer :=
  Quot.liftOn s.1 (List.insertionSort (· ≤ ·))
    (fun l1 l2 h =>
      List.eq_of_perm_of_sorted
        ((List.perm_insertionSort _ l1).trans
          (h.trans (List.perm_insertionSort _ l2).symm))
        (List.sorted_insertionSort _ l1) (List.sorted_insertionSort _ l2))

/-- The local mutable state of `to_dfa`: the DFA arena being built
(`dfa_model.nfa`), the interning map from collected node-set vector to
destination node (`HashMap<Vec<NodePointer>, NodePointer>` as an association
list), and the worklist stack. -/
structure DfaSt where
  dfa : Nfa
  map : List (List NodePointer × NodePointer)
  stack : List (List NodePointer)
deriving DecidableEq

/-- `map.get(&k)` on the association list. -/
def mapGet (m : List (List NodePointer × NodePointer)) (k : List NodePointer) :
    Option NodePointer :=
  (m.find? fun e => decide (e.1 = k)).map (fun e => e.2)

/-- The body of `to_dfa`'s innermost loop for one transition `t` out of a
member of the popped set: skip `Epsilon`; otherwise compute the epsilon
closure of `{t.dest}` over the DFA being built (as the source does — over
`dfa_model.nfa`, not over the input), collect it, intern the vector (reuse
an existing destination node, else allocate a new one and enqueue it), and
add a transition of the same kind from `my_p` to the interned node. -/
def processNonEps (my_p : NodePointer) (st : DfaSt) (k : TransitionType)
    (dest : NodePointer) : Except String DfaSt :=
  let super_state := ascList (Context.add_epsilons {dest} st.dfa)
  match mapGet st.map super_state with
  | some new_p =>
    match st.dfa.add_transition my_p (Transition.new k new_p) with
    | Except.error e => Except.error e
    | Except.ok dfa2 => Except.ok { st with dfa := dfa2 }
  | none =>
    let yd := st.dfa.new_node
    let st1 : DfaSt :=
      ⟨yd.2, (super_state, yd.1) :: st.map, super_state :: st.stack⟩
    match st1.dfa.add_transition my_p (Transition.new k yd.1) with
    | Except.error e => Except.error e
    | Except.ok dfa2 => Except.ok { st1 with dfa := dfa2 }

/-- `if let TransitionType::Epsilon = new.kind {} else { ... }`. -/
def processTransition (my_p : NodePointer) (st : DfaSt) (t : Transition) :
    Except String DfaSt :=
  match t.kind with
  | TransitionType.Epsilon => Except.ok st
  | k => processNonEps my_p st k t.dest

/-- `for new in &self.nfa.get(&old)...transitions` with `?` early return. -/
def forTransitions (my_p : NodePointer) : DfaSt → List Transition →
    Except String DfaSt
  | st, [] => Except.ok st
  | st, t :: ts =>
    match processTransition my_p st t with
    | Except.error e => Except.error e
    | Except.ok st2 => forTransitions my_p st2 ts

/-- The body of `to_dfa`'s middle loop for one member `old` of the popped set:
`self.nfa.get(&old).ok_or("ahh")?`, then every transition in order. -/
def processNode (self : Nfa) (my_p : NodePointer) (st : DfaSt) (old : NodePointer) :
    Except String DfaSt :=
  match self.get old with
  | none => Except.error "ahh"
  | some node => forTransitions my_p st node.transitions

/-- `for old in &x` with `?` early return. -/
def forNodes (self : Nfa) (my_p : NodePointer) : DfaSt → List NodePointer →
    Except String DfaSt
  | st, [] => Except.ok st
  | st, old :: olds =>
    match processNode self my_p st old with
    | Except.error e => Except.error e
    | Except.ok st2 => forNodes self my_p st2 olds

/-- The `while !stack.is_empty()` loop of `to_dfa`, with explicit fuel
(`none` = fuel exhausted; proved unreachable for the fuel used by `to_dfa`):
pop a set, look up its destination node (`map.get(&x).ok_or("how?")?`),
process every member. -/
def toDfaLoop (self : Nfa) : Nat → DfaSt → Option (Except String DfaSt)
  | 0, _ => none
  | fuel + 1, st =>
    match st.stack with
    | [] => some (Except.ok st)
    | x :: rest =>
      match mapGet st.map x with
      | none => some (Except.error "how?")
      | some my_p =>
        match forNodes self my_p { st with stack := rest } x with
        | Except.error e => some (Except.error e)
        | Except.ok st2 => toDfaLoop self fuel st2

/-- All transition destinations occurring anywhere in `self`; every node-set
interned by `to_dfa` other than the seed is `{d}` for such a `d`. -/
def Nfa.allDests (self : Nfa) : Finset NodePointer :=
  self.nodes.foldr
    (fun node acc => (node.transitions.map Transition.dest).toFinset ∪ acc) ∅

/-- The finite space of canonical node-set vectors `to_dfa` can ever intern. -/
def keySpace (self : Nfa) : Finset (List NodePointer) :=
  (insert 0 self.allDests).image (fun d => [d])

/-- Fuel sufficient for `toDfaLoop` (proved below): two units per internable
key plus two. -/
def toDfaFuel (self : Nfa) : Nat := 2 * (keySpace self).card + 2

/-- `struct NfaModel { nfa, start, end }`. -/
structure NfaModel where
  nfa : Nfa
  start : NodePointer
  end_ : NodePointer
deriving DecidableEq

/-- `NfaModel::new`. -/
def NfaModel.new (nfa : Nfa) (start end_ : NodePointer) : NfaModel :=
  ⟨nfa, start, end_⟩

/-- The state of `to_dfa` just before its worklist loop: a fresh arena with a
new start node and a new end node, the worklist seeded with the epsilon
closure of `{start}` computed over that fresh arena (this is what the source
does: it closes over `dfa_model.nfa`, not over `self.nfa`, and seeds with the
new DFA start pointer, not with `self.start`), the map binding the collected
seed to `start`. -/
def toDfaInit : DfaSt :=
  let dfa := Nfa.new []
  let sd := dfa.new_node
  let ed := sd.2.new_node
  let x := ascList (Context.add_epsilons {sd.1} ed.2)
  ⟨ed.2, [(x, sd.1)], [x]⟩

/-- `NfaModel::to_dfa`.  The `start`/`end` of the result are the two fresh
nodes (indices 0 and 1) allocated before the loop. -/
def NfaModel.to_dfa (m : NfaModel) : Except String NfaModel :=
  match toDfaLoop m.nfa (toDfaFuel m.nfa) toDfaInit with
  | none => Except.error "fuel"
  | some (Except.error e) => Except.error e
  | some (Except.ok st) => Except.ok (NfaModel.new st.dfa 0 1)

/-- Acceptance of a word: iterate `Context::step` from the epsilon closure of
the start node and test whether the accepting node is active
(`Context::contains`). -/
def NfaModel.accepts (m : NfaModel) (w : List Char) : Bool :=
  Context.contains
    (w.foldl (fun ctx c => Context.step ctx m.nfa c)
      (Context.add_epsilons {m.start} m.nfa))
    m.end_

/-! ### Claims C1 and C2 -/

/-- The input automaton of the C1 counterexample: node 0 steps to node 1 on
`'a'`, node 1 has an epsilon edge to node 2; start 0, accepting node 2.
It accepts exactly the word "a". -/
def exC1 : NfaModel :=
  NfaModel.new
    (Nfa.new [⟨[Transition.new (TransitionType.Alpha 'a') 1]⟩,
              ⟨[Transition.new TransitionType.Epsilon 2]⟩, ⟨[]⟩]) 0 2

/-- What `to_dfa` actually returns on `exC1`: a three-node arena whose only
transition is `Alpha 'a'` from node 0 to node 2, with accepting node 1 —
which is unreachable, so the result rejects every word. -/
def exC1out : NfaModel :=
  NfaModel.new
    (Nfa.new [⟨[Transition.new (TransitionType.Alpha 'a') 2]⟩, ⟨[]⟩, ⟨[]⟩]) 0 1

/-- Claim C1 is false of the code: on `exC1` the conversion returns `Ok`, the
input model accepts the word "a", but the returned model does not accept it
(the epsilon closures inside `to_dfa` are computed over the DFA being built,
which has no epsilon edges, and the accepting node of the result is the
pre-allocated node 1, which the loop never connects). -/
theorem C1_to_dfa_not_equivalent :
    NfaModel.to_dfa exC1 = Except.ok exC1out ∧
      exC1.accepts ['a'] = true ∧ exC1out.accepts ['a'] = false := by
  refine ⟨by decide, by decide, by decide⟩

/-- The input automaton of the C2 counterexample: start is node 1 (not node
0); node 0 has a self-loop on `'b'`, node 1 a self-loop on `'a'`. -/
def exC2 : NfaModel :=
  NfaModel.new
    (Nfa.new [⟨[Transition.new (TransitionType.Alpha 'b') 0]⟩,
              ⟨[Transition.new (TransitionType.Alpha 'a') 1]⟩]) 1 1

/-- Claim C2 is false of the code: on `exC2` the worklist is seeded with the
vector `[0]` (the epsilon closure of the fresh DFA start node, taken over the
fresh DFA arena), not with `[1]`, the epsilon closure of the input automaton's
start node over the input automaton as the claim requires; the run explores
input node 0 (unreachable from the input start) and interns only the set
`[0]`, never `[1]`. -/
theorem C2_to_dfa_wrong_closure :
    toDfaLoop exC2.nfa (toDfaFuel exC2.nfa) toDfaInit
        = some (Except.ok
            ⟨Nfa.new [⟨[Transition.new (TransitionType.Alpha 'b') 0]⟩, ⟨[]⟩],
             [([0], 0)], []⟩) ∧
      toDfaInit.stack = [[0]] ∧
      ascList (Context.add_epsilons {exC2.start} exC2.nfa) = [1] ∧
      [1] ∉ [([0], (0 : NodePointer))].map Prod.fst := by
  refine ⟨by decide, by decide, by decide, by decide⟩

/-! ### Claim C3: termination of the subset-construction worklist -/

/-- The result state of a successful `add_transition` (used to state C7/C10 as
well): the source node's transition list with `t` appended; unchanged arena
when the source is out of range. -/
def appendTrans (nfa : Nfa) (f : NodePointer) (t : Transition) : Nfa :=
  match nfa.nodes[f]? with
  | none => nfa
  | some node => ⟨nfa.nodes.set f ⟨node.transitions ++ [t]⟩⟩

theorem add_transition_ok {nfa : Nfa} {f : NodePointer} (t : Transition)
    (h : f < nfa.nodes.length) :
    nfa.add_transition f t = Except.ok (appendTrans nfa f t) := by
  unfold Nfa.add_transition appendTrans
  rw [List.getElem?_eq_getElem h]

theorem add_transition_err {nfa : Nfa} {f : NodePointer} (t : Transition)
    (h : nfa.nodes.length ≤ f) :
    nfa.add_transition f t = Except.error "Invalid source!" := by
  unfold Nfa.add_transition
  rw [List.getElem?_eq_none h]

theorem appendTrans_length (nfa : Nfa) (f : NodePointer) (t : Transition) :
    (appendTrans nfa f t).nodes.length = nfa.nodes.length := by
  unfold appendTrans
  cases nfa.nodes[f]? with
  | none => rfl
  | some node => exact List.length_set nfa.nodes f _

/-- No node of the arena carries an `Epsilon` transition. -/
def EpsFree (nfa : Nfa) : Prop :=
  ∀ node ∈ nfa.nodes, ∀ t ∈ node.transitions, t.kind ≠ TransitionType.Epsilon

theorem appendTrans_epsfree {nfa : Nfa} {f : NodePointer} {t : Transition}
    (h : EpsFree nfa) (hk : t.kind ≠ TransitionType.Epsilon) :
    EpsFree (appendTrans nfa f t) := by
  unfold appendTrans
  cases hf : nfa.nodes[f]? with
  | none => exact h
  | some node =>
    intro nd hnd t' ht'
    rcases List.mem_or_eq_of_mem_set hnd with hin | heq
    · exact h nd hin t' ht'
    · subst heq
      rcases List.mem_append.mp ht' with h1 | h2
      · exact h node (List.getElem?_mem hf) t' h1
      · rw [List.mem_singleton.mp h2]; exact hk

theorem epsfree_push_new {nfa : Nfa} (h : EpsFree nfa) :
    EpsFree (Nfa.mk (nfa.nodes ++ [Node.new])) := by
  intro nd hnd t ht
  rcases List.mem_append.mp hnd with h1 | h2
  · exact h nd h1 t ht
  · rw [List.mem_singleton.mp h2] at ht; cases ht

theorem epsDestsOf_epsfree {nfa : Nfa} (h : EpsFree nfa) (p : NodePointer) :
    nfa.epsDestsOf p = ∅ := by
  unfold Nfa.epsDestsOf Nfa.get
  cases hp : nfa.nodes[p]? with
  | none => rfl
  | some node =>
    show node.epsDests = ∅
    unfold Node.epsDests
    have : node.transitions.filterMap (fun t =>
        match t.kind with
        | TransitionType.Epsilon => some t.dest
        | _ => none) = [] := by
      rw [List.filterMap_eq_nil_iff]
      intro t ht
      have := h node (List.getElem?_mem hp) t ht
      cases hk : t.kind with
      | Epsilon => exact absurd hk this
      | Alpha c => rfl
      | Range s => rfl
      | NegativeRange s => rfl
      | QuerySetRange s => rfl
      | Open n => rfl
      | Close n => rfl
    rw [this]; rfl

theorem epsOnce_epsfree {nfa : Nfa} (h : EpsFree nfa) (s : Finset NodePointer) :
    epsOnce nfa s = s := by
  unfold epsOnce
  apply Finset.ext
  intro x
  constructor
  · intro hx
    rcases Finset.mem_union.mp hx with h1 | h2
    · exact h1
    · rcases Finset.mem_biUnion.mp h2 with ⟨p, _, hxp⟩
      rw [epsDestsOf_epsfree h] at hxp
      cases Finset.not_mem_empty x hxp
  · exact fun hx => Finset.mem_union.mpr (Or.inl hx)

theorem add_epsilons_epsfree {nfa : Nfa} (h : EpsFree nfa) (s : Finset NodePointer) :
    Context.add_epsilons s nfa = s :=
  add_epsilons_of_closed (epsOnce_epsfree h s)

theorem ascList_singleton (d : NodePointer) : ascList {d} = [d] := rfl

theorem mem_allDests_foldr {node : Node} {t : Transition} (ht : t ∈ node.transitions) :
    ∀ (l : List Node), node ∈ l →
      t.dest ∈ l.foldr
        (fun nd acc => (nd.transitions.map Transition.dest).toFinset ∪ acc) ∅ := by
  intro l
  induction l with
  | nil => intro h; cases h
  | cons hd tl ih =>
    intro h
    rcases List.mem_cons.mp h with h1 | h2
    · subst h1
      exact Finset.mem_union.mpr (Or.inl (List.mem_toFinset.mpr
        (List.mem_map.mpr ⟨t, ht, rfl⟩)))
    · exact Finset.mem_union.mpr (Or.inr (ih h2))

theorem mem_allDests {self : Nfa} {node : Node} {t : Transition}
    (hn : node ∈ self.nodes) (ht : t ∈ node.transitions) :
    t.dest ∈ self.allDests :=
  mem_allDests_foldr ht self.nodes hn

theorem mapGet_none_not_mem {m : List (List NodePointer × NodePointer)}
    {k : List NodePointer} (h : mapGet m k = none) : k ∉ m.map Prod.fst := by
  intro hk
  rcases List.mem_map.mp hk with ⟨e, he, hek⟩
  unfold mapGet at h
  rw [Option.map_eq_none'] at h
  rw [List.find?_eq_none] at h
  exact absurd (by rw [hek]; exact decide_eq_true rfl : decide (e.1 = k) = true)
    (by simpa using h e he)

theorem mapGet_mem {m : List (List NodePointer × NodePointer)}
    {k : List NodePointer} {p : NodePointer} (h : mapGet m k = some p) :
    (k, p) ∈ m := by
  unfold mapGet at h
  rw [Option.map_eq_some'] at h
  rcases h with ⟨e, he, hep⟩
  have h1 := List.mem_of_find?_eq_some he
  have h2 := List.find?_some he
  have h3 : e.1 = k := of_decide_eq_true h2
  have : e = (k, p) := by
    cases e with
    | mk a b => simp only at h3 hep; rw [h3, hep]
  rwa [this] at h1

theorem mapGet_cons_isSome {m : List (List NodePointer × NodePointer)}
    {k x : List NodePointer} {v : NodePointer}
    (h : (mapGet m x).isSome) : (mapGet ((k, v) :: m) x).isSome := by
  unfold mapGet at h ⊢
  rw [List.find?_cons]
  cases hd : decide ((k, v).1 = x) with
  | true => rfl
  | false => exact h

theorem mapGet_cons_self (m : List (List NodePointer × NodePointer))
    (k : List NodePointer) (v : NodePointer) :
    mapGet ((k, v) :: m) k = some v := by
  unfold mapGet
  rw [List.find?_cons]
  cases hd : decide ((k, v).1 = k) with
  | true => rfl
  | false => exact absurd (of_decide_eq_false hd) (fun h => h rfl)

/-- The loop invariant of `to_dfa`'s worklist loop. -/
structure DfaInv (self : Nfa) (st : DfaSt) : Prop where
  epsfree : EpsFree st.dfa
  nodupKeys : (st.map.map Prod.fst).Nodup
  keysSpace : ∀ k ∈ st.map.map Prod.fst, k ∈ keySpace self
  stackKeys : ∀ x ∈ st.stack, (mapGet st.map x).isSome
  nodeCount : st.map.length + 1 = st.dfa.nodes.length
  valsLt : ∀ e ∈ st.map, e.2 < st.dfa.nodes.length

/-- Termination measure of the worklist loop: interning capacity left (twice)
plus pending worklist length. -/
def dfaMeasure (self : Nfa) (st : DfaSt) : Nat :=
  2 * ((keySpace self).card - st.map.length) + st.stack.length

theorem map_length_le {self : Nfa} {m : List (List NodePointer × NodePointer)}
    (h2 : (m.map Prod.fst).Nodup) (h3 : ∀ k ∈ m.map Prod.fst, k ∈ keySpace self) :
    m.length ≤ (keySpace self).card := by
  have hlen : (m.map Prod.fst).length = m.length := List.length_map _ _
  have hcard : (m.map Prod.fst).toFinset.card = (m.map Prod.fst).length :=
    List.toFinset_card_of_nodup h2
  have hsub : (m.map Prod.fst).toFinset ⊆ keySpace self :=
    fun k hk => h3 k (List.mem_toFinset.mp hk)
  have := Finset.card_le_card hsub
  omega

theorem new_node_eq (nfa : Nfa) :
    nfa.new_node = (nfa.nodes.length, Nfa.mk (nfa.nodes ++ [Node.new])) := rfl

theorem processNonEps_ok (self : Nfa) {my_p : NodePointer} {st : DfaSt}
    {k : TransitionType} {dest : NodePointer}
    (inv : DfaInv self st) (hp : my_p < st.dfa.nodes.length)
    (hd : dest ∈ self.allDests) (hk : k ≠ TransitionType.Epsilon) :
    ∃ st2, processNonEps my_p st k dest = Except.ok st2 ∧ DfaInv self st2 ∧
      my_p < st2.dfa.nodes.length ∧
      dfaMeasure self st2 ≤ dfaMeasure self st := by
  obtain ⟨i1, i2, i3, i4, i5, i6⟩ := inv
  have hsup : ascList (Context.add_epsilons {dest} st.dfa) = [dest] := by
    rw [add_epsilons_epsfree i1]
    rfl
  simp only [processNonEps, hsup, new_node_eq]
  cases hget : mapGet st.map [dest] with
  | some new_p =>
    dsimp only
    rw [add_transition_ok _ hp]
    refine ⟨_, rfl, ?_, ?_, ?_⟩
    · refine ⟨appendTrans_epsfree i1 hk, i2, i3, i4, ?_, ?_⟩
      · dsimp only
        rw [appendTrans_length]
        exact i5
      · intro e he
        dsimp only
        rw [appendTrans_length]
        exact i6 e he
    · dsimp only
      rw [appendTrans_length]
      exact hp
    · unfold dfaMeasure
      dsimp only
      omega
  | none =>
    have hlen1 : my_p < (Nfa.mk (st.dfa.nodes ++ [Node.new])).nodes.length := by
      dsimp only
      rw [List.length_append]
      simp only [List.length_singleton]
      exact Nat.lt_succ_of_lt hp
    have hnodup2 : ((([dest], st.dfa.nodes.length) :: st.map).map Prod.fst).Nodup := by
      rw [List.map_cons]
      exact List.nodup_cons.mpr ⟨mapGet_none_not_mem hget, i2⟩
    have hspace2 : ∀ x ∈ (([dest], st.dfa.nodes.length) :: st.map).map Prod.fst,
        x ∈ keySpace self := by
      rw [List.map_cons]
      intro x hx
      rcases List.mem_cons.mp hx with h1 | h2
      · subst h1
        exact Finset.mem_image.mpr ⟨dest, Finset.mem_insert_of_mem hd, rfl⟩
      · exact i3 x h2
    dsimp only
    rw [add_transition_ok _ hlen1]
    refine ⟨_, rfl, ?_, ?_, ?_⟩
    · refine ⟨?_, hnodup2, hspace2, ?_, ?_, ?_⟩
      · exact appendTrans_epsfree (epsfree_push_new i1) hk
      · intro x hx
        rcases List.mem_cons.mp hx with h1 | h2
        · subst h1
          rw [mapGet_cons_self]
          rfl
        · exact mapGet_cons_isSome (i4 x h2)
      · dsimp only
        rw [appendTrans_length, List.length_cons]
        dsimp only
        rw [List.length_append]
        simp only [List.length_singleton]
        omega
      · intro e he
        dsimp only
        rw [appendTrans_length]
        dsimp only
        rw [List.length_append]
        simp only [List.length_singleton]
        rcases List.mem_cons.mp he with h1 | h2
        · subst h1
          exact Nat.lt_succ_self _
        · exact Nat.lt_succ_of_lt (i6 e h2)
    · dsimp only
      rw [appendTrans_length]
      dsimp only
      rw [List.length_append]
      simp only [List.length_singleton]
      exact Nat.lt_succ_of_lt hp
    · have hle : (([dest], st.dfa.nodes.length) :: st.map).length
          ≤ (keySpace self).card := map_length_le hnodup2 hspace2
      unfold dfaMeasure
      dsimp only
      rw [List.length_cons] at hle ⊢
      rw [List.length_cons]
      omega

theorem processTransition_ok (self : Nfa) {my_p : NodePointer} {st : DfaSt}
    {t : Transition} (inv : DfaInv self st) (hp : my_p < st.dfa.nodes.length)
    (hd : t.dest ∈ self.allDests) :
    ∃ st2, processTransition my_p st t = Except.ok st2 ∧ DfaInv self st2 ∧
      my_p < st2.dfa.nodes.length ∧
      dfaMeasure self st2 ≤ dfaMeasure self st := by
  cases hk : t.kind with
  | Epsilon =>
    refine ⟨st, ?_, inv, hp, le_refl _⟩
    simp only [processTransition, hk]
  | Alpha c =>
    simp only [processTransition, hk]
    exact processNonEps_ok self inv hp hd (fun h => by cases h)
  | Range s =>
    simp only [processTransition, hk]
    exact processNonEps_ok self inv hp hd (fun h => by cases h)
  | NegativeRange s =>
    simp only [processTransition, hk]
    exact processNonEps_ok self inv hp hd (fun h => by cases h)
  | QuerySetRange s =>
    simp only [processTransition, hk]
    exact processNonEps_ok self inv hp hd (fun h => by cases h)
  | Open n =>
    simp only [processTransition, hk]
    exact processNonEps_ok self inv hp hd (fun h => by cases h)
  | Close n =>
    simp only [processTransition, hk]
    exact processNonEps_ok self inv hp hd (fun h => by cases h)

theorem forTransitions_ok (self : Nfa) {my_p : NodePointer} :
    ∀ (ts : List Transition) (st : DfaSt), DfaInv self st →
      my_p < st.dfa.nodes.length → (∀ t ∈ ts, t.dest ∈ self.allDests) →
      ∃ st2, forTransitions my_p st ts = Except.ok st2 ∧ DfaInv self st2 ∧
        my_p < st2.dfa.nodes.length ∧
        dfaMeasure self st2 ≤ dfaMeasure self st := by
  intro ts
  induction ts with
  | nil => intro st inv hp _; exact ⟨st, rfl, inv, hp, le_refl _⟩
  | cons t ts ih =>
    intro st inv hp hd
    obtain ⟨st1, heq, inv1, hp1, hm1⟩ :=
      processTransition_ok self inv hp (hd t (List.mem_cons_self t ts))
    obtain ⟨st2, heq2, inv2, hp2, hm2⟩ :=
      ih st1 inv1 hp1 (fun t' ht' => hd t' (List.mem_cons_of_mem t ht'))
    refine ⟨st2, ?_, inv2, hp2, le_trans hm2 hm1⟩
    show (match processTransition my_p st t with
          | Except.error e => Except.error e
          | Except.ok st2 => forTransitions my_p st2 ts) = Except.ok st2
    rw [heq]
    exact heq2

theorem processNode_spec (self : Nfa) {my_p : NodePointer} {st : DfaSt}
    (old : NodePointer) (inv : DfaInv self st) (hp : my_p < st.dfa.nodes.length) :
    (∃ e, processNode self my_p st old = Except.error e) ∨
    (∃ st2, processNode self my_p st old = Except.ok st2 ∧ DfaInv self st2 ∧
      my_p < st2.dfa.nodes.length ∧
      dfaMeasure self st2 ≤ dfaMeasure self st) := by
  cases hn : self.get old with
  | none =>
    left
    refine ⟨"ahh", ?_⟩
    simp only [processNode, hn]
  | some node =>
    right
    have hnode : node ∈ self.nodes := by
      unfold Nfa.get at hn
      exact List.getElem?_mem hn
    obtain ⟨st2, heq, inv2, hp2, hm2⟩ :=
      forTransitions_ok self node.transitions st inv hp
        (fun t ht => mem_allDests hnode ht)
    refine ⟨st2, ?_, inv2, hp2, hm2⟩
    simp only [processNode, hn]
    exact heq

theorem forNodes_spec (self : Nfa) {my_p : NodePointer} :
    ∀ (olds : List NodePointer) (st : DfaSt), DfaInv self st →
      my_p < st.dfa.nodes.length →
      (∃ e, forNodes self my_p st olds = Except.error e) ∨
      (∃ st2, forNodes self my_p st olds = Except.ok st2 ∧ DfaInv self st2 ∧
        dfaMeasure self st2 ≤ dfaMeasure self st) := by
  intro olds
  induction olds with
  | nil => intro st inv _; exact Or.inr ⟨st, rfl, inv, le_refl _⟩
  | cons old olds ih =>
    intro st inv hp
    rcases processNode_spec self old inv hp with ⟨e, he⟩ | ⟨st1, heq, inv1, hp1, hm1⟩
    · left
      refine ⟨e, ?_⟩
      show (match processNode self my_p st old with
            | Except.error e => Except.error e
            | Except.ok st2 => forNodes self my_p st2 olds) = Except.error e
      rw [he]
    · rcases ih st1 inv1 hp1 with ⟨e, he2⟩ | ⟨st2, heq2, inv2, hm2⟩
      · left
        refine ⟨e, ?_⟩
        show (match processNode self my_p st old with
              | Except.error e => Except.error e
              | Except.ok st2 => forNodes self my_p st2 olds) = Except.error e
        rw [heq]
        exact he2
      · right
        refine ⟨st2, ?_, inv2, le_trans hm2 hm1⟩
        show (match processNode self my_p st old with
              | Except.error e => Except.error e
              | Except.ok st2 => forNodes self my_p st2 olds) = Except.ok st2
        rw [heq]
        exact heq2

/-- What holds of the loop's result: an early `Err` return, or a final state
with an empty worklist whose interned node-set keys are pairwise distinct —
both as vectors and as sets, so no canonical node-set was interned (hence
pushed) twice — and whose arena holds exactly one node per interned set plus
the pre-allocated end node. -/
def toDfaPost (r : Except String DfaSt) : Prop :=
  match r with
  | Except.error _ => True
  | Except.ok st =>
    st.stack = [] ∧ (st.map.map Prod.fst).Nodup ∧
      ((st.map.map Prod.fst).map List.toFinset).Nodup ∧
      st.dfa.nodes.length = st.map.length + 1

theorem keys_toFinset_nodup {self : Nfa} {keys : List (List NodePointer)}
    (h1 : keys.Nodup) (h2 : ∀ k ∈ keys, k ∈ keySpace self) :
    (keys.map List.toFinset).Nodup := by
  refine List.Nodup.map_on ?_ h1
  intro x hx y hy hxy
  rcases Finset.mem_image.mp (h2 x hx) with ⟨dx, _, hdx⟩
  rcases Finset.mem_image.mp (h2 y hy) with ⟨dy, _, hdy⟩
  subst hdx
  subst hdy
  have : ({dx} : Finset NodePointer) = {dy} := by
    have hx' : ([dx] : List NodePointer).toFinset = {dx} := by simp
    have hy' : ([dy] : List NodePointer).toFinset = {dy} := by simp
    rw [hx', hy'] at hxy
    exact hxy
  rw [Finset.singleton_inj.mp this]

theorem toDfaLoop_succ (self : Nfa) (n : Nat) (st : DfaSt) :
    toDfaLoop self (n + 1) st =
      (match st.stack with
       | [] => some (Except.ok st)
       | x :: rest =>
         match mapGet st.map x with
         | none => some (Except.error "how?")
         | some my_p =>
           match forNodes self my_p { st with stack := rest } x with
           | Except.error e => some (Except.error e)
           | Except.ok st2 => toDfaLoop self n st2) := rfl

theorem toDfaLoop_some (self : Nfa) :
    ∀ (fuel : Nat) (st : DfaSt), DfaInv self st →
      dfaMeasure self st < fuel →
      ∃ r, toDfaLoop self fuel st = some r ∧ toDfaPost r := by
  intro fuel
  induction fuel with
  | zero => intro st _ h; exact absurd h (Nat.not_lt_zero _)
  | succ n ih =>
    intro st inv hm
    obtain ⟨i1, i2, i3, i4, i5, i6⟩ := inv
    cases hstack : st.stack with
    | nil =>
      refine ⟨Except.ok st, ?_, hstack, i2, keys_toFinset_nodup i2 i3, by omega⟩
      rw [toDfaLoop_succ, hstack]
    | cons x rest =>
      have hx : (mapGet st.map x).isSome := i4 x (by rw [hstack]; exact List.mem_cons_self x rest)
      obtain ⟨my_p, hmy⟩ := Option.isSome_iff_exists.mp hx
      have hple : my_p < st.dfa.nodes.length := i6 (x, my_p) (mapGet_mem hmy)
      have inv1 : DfaInv self { st with stack := rest } :=
        ⟨i1, i2, i3, fun y hy => i4 y (by rw [hstack]; exact List.mem_cons_of_mem x hy), i5, i6⟩
      have hm1 : dfaMeasure self { st with stack := rest } + 1 = dfaMeasure self st := by
        unfold dfaMeasure
        dsimp only
        rw [hstack, List.length_cons]
        omega
      rcases forNodes_spec self x { st with stack := rest } inv1 hple with
        ⟨e, he⟩ | ⟨st2, heq, inv2, hm2⟩
      · refine ⟨Except.error e, ?_, trivial⟩
        rw [toDfaLoop_succ, hstack]
        dsimp only
        rw [hmy]
        dsimp only
        rw [he]
      · obtain ⟨r, hr, hpost⟩ := ih st2 inv2 (by omega)
        refine ⟨r, ?_, hpost⟩
        rw [toDfaLoop_succ, hstack]
        dsimp only
        rw [hmy]
        dsimp only
        rw [heq]
        exact hr

theorem toDfaInit_eq :
    toDfaInit = ⟨Nfa.mk [Node.new, Node.new], [([0], 0)], [[0]]⟩ := by decide

theorem toDfaInit_inv (self : Nfa) : DfaInv self toDfaInit := by
  rw [toDfaInit_eq]
  refine ⟨?_, ?_, ?_, ?_, ?_, ?_⟩
  · intro node hnode t ht
    rcases List.mem_cons.mp hnode with h1 | h2
    · subst h1; cases ht
    · rw [List.mem_singleton.mp h2] at ht; cases ht
  · exact List.nodup_singleton _
  · intro k hk
    simp only [List.map_cons, List.map_nil, List.mem_singleton] at hk
    rw [hk]
    exact Finset.mem_image.mpr ⟨0, Finset.mem_insert_self 0 _, rfl⟩
  · intro x hx
    rw [List.mem_singleton.mp hx]
    rfl
  · rfl
  · intro e he
    rw [List.mem_singleton.mp he]
    exact Nat.zero_lt_two

theorem toDfaInit_measure (self : Nfa) :
    dfaMeasure self toDfaInit < toDfaFuel self := by
  rw [toDfaInit_eq]
  unfold dfaMeasure toDfaFuel
  dsimp only
  rw [List.length_singleton, List.length_singleton]
  omega

/-- Claim C3: the worklist loop of `to_dfa` never interns (hence never
pushes) the same canonical node-set twice, and terminates within the fuel
`to_dfa` supplies on every input automaton (`some r`; an early `Err` return
also terminates).  Every pushed set is interned into the map at push time and
the map only grows, so the `Nodup` of the final interned keys — both as
vectors and as canonical `Finset`s — means no set was pushed twice; on a
successful run the worklist ends empty and the arena holds exactly one node
per distinct interned node-set plus the pre-allocated end node, bounding the
allocated destination nodes by the number of distinct reachable node-sets. -/
theorem C3_to_dfa_terminates (m : NfaModel) :
    ∃ r, toDfaLoop m.nfa (toDfaFuel m.nfa) toDfaInit = some r ∧ toDfaPost r :=
  toDfaLoop_some m.nfa (toDfaFuel m.nfa) toDfaInit (toDfaInit_inv m.nfa)
    (toDfaInit_measure m.nfa)

/-! ### Claims C7 and C10: the arena mutators -/

/-- The behaviour every transition-adding mutator must have per claim C7:
an error exactly when the source index is out of range, otherwise success
with the transition appended to the source node. -/
def AddTransSpec (nfa : Nfa) (f : NodePointer) (tr : Transition)
    (r : Except String Nfa) : Prop :=
  if nfa.nodes.length ≤ f then r = Except.error "Invalid source!"
  else r = Except.ok (appendTrans nfa f tr)

theorem addTransSpec_holds (nfa : Nfa) (f : NodePointer) (tr : Transition) :
    AddTransSpec nfa f tr (nfa.add_transition f tr) := by
  unfold AddTransSpec
  split
  · next h => exact add_transition_err tr h
  · next h => exact add_transition_ok tr (Nat.lt_of_not_le h)

theorem appendTrans_getElem (nfa : Nfa) (f : NodePointer) (tr : Transition) :
    (appendTrans nfa f tr).nodes[f]? =
      (nfa.nodes[f]?).map (fun node => Node.mk (node.transitions ++ [tr])) := by
  unfold appendTrans
  cases hf : nfa.nodes[f]? with
  | none => rw [hf]; rfl
  | some node =>
    obtain ⟨h, _⟩ := List.getElem?_eq_some_iff.mp hf
    show (nfa.nodes.set f (Node.mk (node.transitions ++ [tr])))[f]? = _
    rw [List.getElem?_set_eq_of_lt _ h]
    rfl

/-- Claim C7: every transition-adding mutator (`add_transition_alpha`,
`add_transition_range`, `add_transition_negativerange`,
`add_transition_queryset`, `add_transition_epsilon`, `add_group`) returns an
error exactly when the relevant source pointer is out of range for the arena,
and on success appends the new transition(s) to the source node's transition
list while leaving the node count unchanged. -/
theorem C7_mutators (nfa : Nfa) (f t sf st_ ef et : NodePointer) (c : Char)
    (s : String) (n : Nat) (tr : Transition) :
    AddTransSpec nfa f (Transition.new (TransitionType.Alpha c) t)
        (nfa.add_transition_alpha f t c) ∧
      AddTransSpec nfa f (Transition.new (TransitionType.Range s) t)
        (nfa.add_transition_range f t s) ∧
      AddTransSpec nfa f (Transition.new (TransitionType.NegativeRange s) t)
        (nfa.add_transition_negativerange f t s) ∧
      AddTransSpec nfa f (Transition.new (TransitionType.QuerySetRange s) t)
        (nfa.add_transition_queryset f t s) ∧
      AddTransSpec nfa f (Transition.new TransitionType.Epsilon t)
        (nfa.add_transition_epsilon f t) ∧
      (if nfa.nodes.length ≤ sf ∨ nfa.nodes.length ≤ ef
       then (nfa.add_group sf st_ ef et n).1 = Except.error "Invalid source!"
       else nfa.add_group sf st_ ef et n =
         (Except.ok (),
          appendTrans (appendTrans nfa sf (Transition.new (TransitionType.Open n) st_))
            ef (Transition.new (TransitionType.Close n) et))) ∧
      (appendTrans nfa f tr).nodes.length = nfa.nodes.length ∧
      (appendTrans nfa f tr).nodes[f]? =
        (nfa.nodes[f]?).map (fun node => Node.mk (node.transitions ++ [tr])) := by
  refine ⟨addTransSpec_holds nfa f _, addTransSpec_holds nfa f _,
    addTransSpec_holds nfa f _, addTransSpec_holds nfa f _,
    addTransSpec_holds nfa f _, ?_, appendTrans_length nfa f tr,
    appendTrans_getElem nfa f tr⟩
  unfold Nfa.add_group
  split
  · next h =>
    rcases Nat.le_total nfa.nodes.length sf with hsf | hsf
    · rw [add_transition_err _ hsf]
    · have hsf2 : sf < nfa.nodes.length ∨ sf = nfa.nodes.length :=
        Nat.lt_or_eq_of_le hsf
      rcases h with h1 | h2
      · rcases hsf2 with h3 | h3
        · exact absurd h1 (Nat.not_le_of_lt h3)
        · rw [h3, add_transition_err _ (le_refl _)]
      · rcases hsf2 with h3 | h3
        · rw [add_transition_ok _ h3]
          have h4 : (appendTrans nfa sf
              (Transition.new (TransitionType.Open n) st_)).nodes.length ≤ ef := by
            rw [appendTrans_length]; exact h2
          dsimp only
          rw [add_transition_err _ h4]
        · rw [h3, add_transition_err _ (le_refl _)]
  · next h =>
    push_neg at h
    obtain ⟨h1, h2⟩ := h
    rw [add_transition_ok _ h1]
    have h3 : ef < (appendTrans nfa sf
        (Transition.new (TransitionType.Open n) st_)).nodes.length := by
      rw [appendTrans_length]; exact h2
    dsimp only
    rw [add_transition_ok _ h3]

/-- Claim C10: `add_group` is not atomic on error — when `start_from` is in
range but `end_from` is not, it returns the "Invalid source!" error and yet
the `Open(num)` transition has already been appended to `start_from`'s
transition list, leaving the arena modified despite the failure. -/
theorem C10_add_group_not_atomic (nfa : Nfa) (sf st_ ef et : NodePointer)
    (n : Nat) (h1 : sf < nfa.nodes.length) (h2 : nfa.nodes.length ≤ ef) :
    nfa.add_group sf st_ ef et n =
        (Except.error "Invalid source!",
         appendTrans nfa sf (Transition.new (TransitionType.Open n) st_)) ∧
      (appendTrans nfa sf (Transition.new (TransitionType.Open n) st_)).nodes[sf]? =
        (nfa.nodes[sf]?).map
          (fun node => Node.mk
            (node.transitions ++ [Transition.new (TransitionType.Open n) st_])) ∧
      appendTrans nfa sf (Transition.new (TransitionType.Open n) st_) ≠ nfa := by
  refine ⟨?_, appendTrans_getElem nfa sf _, ?_⟩
  · unfold Nfa.add_group
    rw [add_transition_ok _ h1]
    have h3 : (appendTrans nfa sf
        (Transition.new (TransitionType.Open n) st_)).nodes.length ≤ ef := by
      rw [appendTrans_length]; exact h2
    dsimp only
    rw [add_transition_err _ h3]
  · intro hcontra
    have hget := appendTrans_getElem nfa sf (Transition.new (TransitionType.Open n) st_)
    rw [hcontra] at hget
    rw [List.getElem?_eq_getElem h1] at hget
    have : nfa.nodes[sf].transitions =
        nfa.nodes[sf].transitions ++ [Transition.new (TransitionType.Open n) st_] := by
      have := Option.some.inj hget
      exact congrArg Node.transitions this
    have hlen := congrArg List.length this
    rw [List.length_append, List.length_singleton] at hlen
    omega

/-- Witness for C10 at a concrete arena: one node, `start_from = 0` in range,
`end_from = 5` out of range. -/
theorem C10_witness :
    (Nfa.new [Node.new]).add_group 0 0 5 0 7 =
        (Except.error "Invalid source!",
         appendTrans (Nfa.new [Node.new]) 0 (Transition.new (TransitionType.Open 7) 0)) ∧
      (appendTrans (Nfa.new [Node.new]) 0 (Transition.new (TransitionType.Open 7) 0)).nodes[(0 : Nat)]? =
        ((Nfa.new [Node.new]).nodes[(0 : Nat)]?).map
          (fun node => Node.mk
            (node.transitions ++ [Transition.new (TransitionType.Open 7) 0])) ∧
      appendTrans (Nfa.new [Node.new]) 0 (Transition.new (TransitionType.Open 7) 0)
        ≠ Nfa.new [Node.new] :=
  C10_add_group_not_atomic (Nfa.new [Node.new]) 0 0 5 0 7 (by decide) (by decide)

/-! ### The C-like scanners (src/languages/clike.rs)

The record types `Function` and `Identifier` live in `src/languages/parsing.rs`,
which is not part of the provided sources; their fields are determined by
their constructor calls in clike.rs and the `Debug` output asserted by the
tests in clike.rs (`Function { name }`,
`Identifier { name, typ, start, end }`). -/

/-- `Function { name: String }` (from the constructor call
`Function::new(text[start..end].to_string())` and the test's Debug output). -/
structure Function where
  name : String
deriving DecidableEq

/-- `Function::new`. -/
def Function.new (name : String) : Function := ⟨name⟩

/-- `Identifier { name, typ, start, end }` (from the constructor calls in
clike.rs and the test's Debug output). -/
structure Identifier where
  name : String
  typ : String
  start : Nat
  end_ : Nat
deriving DecidableEq

/-- `Identifier::new`. -/
def Identifier.new (name typ : String) (start end_ : Nat) : Identifier :=
  ⟨name, typ, start, end_⟩

/-- `Clike::is_allowed`. -/
def is_allowed (x : String) : Bool :=
  !(["public", "package", "private", "protected",
     "import", "void", "true", "false", "extends"].contains x)

/-- `text[a..b].to_string()`: slicing by character offsets (Rust slices by
byte offsets; the two coincide on ASCII text, and all text reasoned about
here is ASCII). -/
def sliceStr (text : List Char) (a b : Nat) : String :=
  String.mk ((text.drop a).take (b - a))

/-- `enum FunctionFsm`. -/
inductive FunctionFsm where
  | NAME : FunctionFsm
  | SPACE : FunctionFsm
  | BRACE : FunctionFsm
  | NONE : FunctionFsm
  | PARENS : Int → FunctionFsm
deriving DecidableEq

/-- The mutable locals of `read_functions`. -/
structure FState where
  s : FunctionFsm
  start : Nat
  end_ : Nat
  v : List Function
deriving DecidableEq

/-- One iteration of `read_functions`' character loop. -/
def readFunctionsStep (text : List Char) (st : FState) (i : Nat) (c : Char) :
    FState :=
  match st.s with
  | FunctionFsm.NONE =>
    if c.isAlphanum then { st with s := FunctionFsm.NAME, start := i } else st
  | FunctionFsm.NAME =>
    if c = '(' then { st with s := FunctionFsm.PARENS 1, end_ := i }
    else if !c.isAlphanum then { st with s := FunctionFsm.NONE }
    else st
  | FunctionFsm.PARENS j =>
    if c = '(' then { st with s := FunctionFsm.PARENS (j + 1) }
    else if c = ')' then { st with s := FunctionFsm.PARENS (j - 1) }
    else if c.isWhitespace && j == 0 then { st with s := FunctionFsm.SPACE }
    else if c = '{' && j == 0 then { st with s := FunctionFsm.BRACE }
    else st
  | FunctionFsm.SPACE =>
    if c.isAlphanum then { st with s := FunctionFsm.NAME, start := i }
    else if c = '{' then { st with s := FunctionFsm.BRACE }
    else if !c.isWhitespace then { st with s := FunctionFsm.NONE }
    else st
  | FunctionFsm.BRACE =>
    { st with v := st.v ++ [Function.new (sliceStr text st.start st.end_)],
              s := FunctionFsm.NONE }

/-- `Clike::read_functions` (over the character sequence of the text). -/
def read_functions (text : List Char) : List Function :=
  (text.enum.foldl (fun st ic => readFunctionsStep text st ic.1 ic.2)
    ⟨FunctionFsm.NONE, 0, 0, []⟩).v

/-- `enum IFsm`. -/
inductive IFsm where
  | NONE : IFsm
  | NAME1 : IFsm
  | SPACE : IFsm
  | NAME2 : IFsm
  | DOT : IFsm
deriving DecidableEq

/-- One scope frame: `HashMap<String, String>` as an association list whose
`insert` prepends (lookup takes the first match, i.e. the latest insert,
matching the hash map's replace-on-insert observable behaviour). -/
abbrev Frame := List (String × String)

/-- `frame.get(&name)`. -/
def frameGet (f : Frame) (name : String) : Option String :=
  (f.find? fun p => decide (p.1 = name)).map (fun p => p.2)

/-- `map.insert(name, typ)`. -/
def frameInsert (f : Frame) (name typ : String) : Frame := (name, typ) :: f

/-- The use-site lookup loop
`for frame in stack.iter().rev() { if let Some(typ) = frame.get(&name) ... break }`:
scan the frames innermost (last pushed) first, first match wins. -/
def lookupUse (stack : List Frame) (name : String) : Option String :=
  stack.reverse.findSome? (fun f => frameGet f name)

/-- The mutable locals of `read_identifiers` (`n2e` is local to one arm). -/
structure IState where
  s : IFsm
  n1s : Nat
  n1e : Nat
  n2s : Nat
  v : List Identifier
  stack : List Frame
deriving DecidableEq

/-- One iteration of `read_identifiers`' character loop.  `none` models a
panic: the only panicking operation is `stack.last_mut().unwrap()` when a
two-token declaration completes while the scope stack is empty (`Vec::pop`
on the empty stack is itself a no-op). -/
def readIdentifiersStep (text : List Char) (st : IState) (i : Nat) (c : Char) :
    Option IState :=
  let st :=
    if c = '{' then { st with stack := st.stack ++ [[]], s := IFsm.NONE }
    else if c = '}' then { st with stack := st.stack.dropLast, s := IFsm.NONE }
    else st
  match st.s with
  | IFsm.NONE =>
    if c = '.' then some { st with s := IFsm.DOT }
    else if c.isAlpha then some { st with s := IFsm.NAME1, n1s := i }
    else some st
  | IFsm.DOT =>
    if c.isWhitespace then some { st with s := IFsm.SPACE } else some st
  | IFsm.NAME1 =>
    if c.isWhitespace then some { st with s := IFsm.SPACE, n1e := i }
    else if !c.isAlphanum then
      let s2 := if c = '.' then IFsm.DOT else IFsm.NONE
      let name := sliceStr text st.n1s i
      let v2 := match lookupUse st.stack name with
        | some typ => st.v ++ [Identifier.new name typ st.n1s i]
        | none => st.v
      some { st with s := s2, n1e := i, v := v2 }
    else some st
  | IFsm.SPACE =>
    if c.isAlpha then some { st with s := IFsm.NAME2, n2s := i }
    else if !c.isWhitespace then
      let name := sliceStr text st.n1s st.n1e
      let v2 := match lookupUse st.stack name with
        | some typ => st.v ++ [Identifier.new name typ st.n1s st.n1e]
        | none => st.v
      some { st with s := IFsm.NONE, v := v2 }
    else some st
  | IFsm.NAME2 =>
    if !c.isAlphanum then
      let s2 := if c = '.' then IFsm.DOT else IFsm.NONE
      let name := sliceStr text st.n2s i
      let typ := sliceStr text st.n1s st.n1e
      if is_allowed name && is_allowed typ then
        if hstack : st.stack = [] then none
        else
          some { st with
            s := s2
            v := st.v ++ [Identifier.new name typ st.n2s i]
            stack := st.stack.dropLast
              ++ [frameInsert (st.stack.getLast hstack) name typ] }
      else some { st with s := s2 }
    else some st

/-- `Clike::read_identifiers` (over the character sequence of the text);
`none` models a panic. -/
def read_identifiers (text : List Char) : Option (List Identifier) :=
  (text.enum.foldlM (fun st ic => readIdentifiersStep text st ic.1 ic.2)
    ⟨IFsm.NONE, 0, 0, 0, [], [[]]⟩).map (fun st => st.v)

/-! ### Claims C5, C6, C9 -/

/-- Claim C5 is false of the code: a pop of the scope stack on `}` is indeed
a saturating no-op (the text consisting of one unmatched `}` scans fine),
but a two-token declaration completed after such an unmatched `}` — here the
text consisting of the five characters `}`, `a`, space, `b`, `;` — reaches `stack.last_mut().unwrap()` with an empty stack and
panics (modelled as `none`). -/
theorem C5_read_identifiers_panics :
    read_identifiers ['}'] = some [] ∧
      read_identifiers ['}', 'a', ' ', 'b', ';'] = none :=
  ⟨by decide, by decide⟩

/-- The fixture of claim C6: `Type x;` then an inner block redeclaring
`Type2 x;` and using `x`, then, after the block closes, another use of `x`. -/
def shadowText : List Char :=
  ['T', 'y', 'p', 'e', ' ', 'x', ';', '{', 'T', 'y', 'p', 'e', '2', ' ',
   'x', ';', 'x', ';', '}', 'x', ';']

/-- Claim C6: the use-site lookup scans the scope stack innermost frame
first and the first frame containing a binding determines the emitted type
(pushing a frame shadows every outer binding of the same name; the empty
stack yields nothing); hence on the fixture the inner use of `x` resolves to
`Type2` and the use after the inner block closes resolves to `Type` again
(the first two records are the two declaration sites). -/
theorem C6_scope_lookup :
    (∀ (stack : List Frame) (f : Frame) (name : String),
        lookupUse (stack ++ [f]) name = (frameGet f name).or (lookupUse stack name)) ∧
      (∀ name : String, lookupUse [] name = none) ∧
      read_identifiers shadowText =
        some [Identifier.new "x" "Type" 5 6, Identifier.new "x" "Type2" 14 15,
              Identifier.new "x" "Type2" 16 17, Identifier.new "x" "Type" 19 20] := by
  refine ⟨?_, fun name => rfl, by decide⟩
  intro stack f name
  unfold lookupUse
  rw [List.reverse_append, List.reverse_singleton, List.singleton_append,
    List.findSome?_cons]
  cases h : frameGet f name with
  | some typ => simp [Option.or]
  | none => simp [Option.or]

/-- Claim C9 as stated is false of the code: the emission happens only when
the character after the `{` is processed, so when `{` is the final character
of the text — here "f(){" — no record is emitted even though the scanner
entered `BRACE`. -/
theorem C9_counterexample :
    read_functions ['f', '(', ')', '{'] = [] ∧
      ([] : List Function) ≠ [Function.new "f"] :=
  ⟨by decide, by decide⟩

/-- Claim C9 amended: whenever the scanner is in the `BRACE` state and one
more character is processed (whatever it is), `read_functions` emits a
`Function` record whose name is the text between the recorded name-start
offset and the recorded name-end offset and returns to the idle state; if
the `{` that entered `BRACE` ends the text, no record is emitted
(`C9_counterexample`). -/
theorem C9_brace_always_emits (text : List Char) (i : Nat) (c : Char)
    (start end_ : Nat) (v : List Function) :
    readFunctionsStep text ⟨FunctionFsm.BRACE, start, end_, v⟩ i c =
      ⟨FunctionFsm.NONE, start, end_,
       v ++ [Function.new (sliceStr text start end_)]⟩ := rfl
